import Mathlib

set_option maxRecDepth 100000
set_option maxHeartbeats 2000000
set_option linter.unusedVariables false

/-!
Verification development for the lipsync-engine repository.

The two core components modelled here are:

* `RingBuffer` (src/src/utils/EventEmitter.js, `class RingBuffer`): a
  fixed-capacity circular buffer of audio samples with `write`,
  `writeOverflow`, `read`, `readOne`, `peek` and `clear` operations.
* `FrequencyAnalyzer` (same file, `class FrequencyAnalyzer`) together with
  the static viseme tables of src/src/core/visemes.js: the silence gate,
  the heuristic viseme classifier `_classifyViseme`, the hold-off state
  machine and the frame builder `_emitViseme`.

Samples are modelled as exact rationals (the JS engine uses IEEE floats;
all properties proved here are branch/ordering properties for which the
exact-arithmetic idealisation is the intended reading of the spec).
JS numbers that the code only ever uses as counters are modelled as `ℕ`
or, where the spec asserts non-negativity as a property (the ring
buffer's `available`), as `ℤ`.
-/

/-! ### Ring buffer (translated from `class RingBuffer`) -/

/-- State of `RingBuffer`: `buffer` is the backing `Float32Array` (length =
`capacity`), `readPtr`/`writePtr` are the cursors, `available` the unread
sample count.  `available` is modelled as `ℤ` so that the spec claim
`0 ≤ available` is a genuine proof obligation, not a typing artifact. -/
structure RingBuffer where
  buffer : List ℚ
  capacity : ℕ
  readPtr : ℕ
  writePtr : ℕ
  available : ℤ
deriving DecidableEq, Repr

/-- `new RingBuffer(capacity)`: zero-filled backing array, cursors at 0. -/
def RingBuffer.new (capacity : ℕ) : RingBuffer :=
  { buffer := List.replicate capacity 0
    capacity := capacity
    readPtr := 0
    writePtr := 0
    available := 0 }

/-- Getter `free`: `capacity - available`. -/
def RingBuffer.free (rb : RingBuffer) : ℤ :=
  (rb.capacity : ℤ) - rb.available

/-- The for-loop body of `write`: store each sample at `writePtr` and
advance `writePtr` modulo `capacity`. -/
def writeSamples (rb : RingBuffer) : List ℚ → RingBuffer
  | [] => rb
  | s :: rest =>
      writeSamples
        { rb with
          buffer := rb.buffer.set rb.writePtr s
          writePtr := (rb.writePtr + 1) % rb.capacity } rest

/-- `write(samples)`: writes `min(samples.length, free)` samples, bumps
`available`, returns the written count (`toWrite`). -/
def RingBuffer.write (rb : RingBuffer) (samples : List ℚ) : RingBuffer × ℤ :=
  let toWrite : ℤ := min (samples.length : ℤ) rb.free
  let rb' := writeSamples rb (samples.take toWrite.toNat)
  ({ rb' with available := rb.available + toWrite }, toWrite)

/-- One iteration of the `writeOverflow` loop: evict the oldest sample when
full (advancing `readPtr` and counting the eviction), otherwise grow
`available`; then store the sample at `writePtr` and advance it.  The
boolean reports whether an eviction happened. -/
def overflowStep (rb : RingBuffer) (s : ℚ) : RingBuffer × Bool :=
  let step :=
    if rb.available ≥ (rb.capacity : ℤ) then
      ({ rb with readPtr := (rb.readPtr + 1) % rb.capacity }, true)
    else
      ({ rb with available := rb.available + 1 }, false)
  let rb1 := step.1
  ({ rb1 with
      buffer := rb1.buffer.set rb1.writePtr s
      writePtr := (rb1.writePtr + 1) % rb1.capacity }, step.2)

/-- `writeOverflow(samples)`: runs `overflowStep` over the input and
returns the total overwritten count. -/
def RingBuffer.writeOverflow (rb : RingBuffer) : List ℚ → RingBuffer × ℕ
  | [] => (rb, 0)
  | s :: rest =>
      let r1 := overflowStep rb s
      let r2 := r1.1.writeOverflow rest
      (r2.1, (if r1.2 then 1 else 0) + r2.2)

/-- The for-loop of `read`: pop `n` samples starting at `readPtr`,
returning them in order (this is the data written into the destination
array `target[offset..offset+n)`). -/
def readSamples (rb : RingBuffer) : ℕ → RingBuffer × List ℚ
  | 0 => (rb, [])
  | n + 1 =>
      let x := rb.buffer.getD rb.readPtr 0
      let r := readSamples { rb with readPtr := (rb.readPtr + 1) % rb.capacity } n
      (r.1, x :: r.2)

/-- `read(target, offset, count)`: reads `min(count, available)` samples
(where `count` defaults to the free room in the destination) and lowers
`available`.  The returned list is the sequence of samples stored into the
destination. -/
def RingBuffer.read (rb : RingBuffer) (count : ℕ) : RingBuffer × List ℚ :=
  let toRead : ℤ := min (count : ℤ) rb.available
  let r := readSamples rb toRead.toNat
  ({ r.1 with available := rb.available - toRead }, r.2)

/-- `readOne()`: returns 0 when empty, else pops one sample. -/
def RingBuffer.readOne (rb : RingBuffer) : RingBuffer × ℚ :=
  if rb.available = 0 then (rb, 0)
  else
    ({ rb with
        readPtr := (rb.readPtr + 1) % rb.capacity
        available := rb.available - 1 },
     rb.buffer.getD rb.readPtr 0)

/-- `peek(count)`: non-destructive read of `min(count, available)`
samples starting at `readPtr`. -/
def RingBuffer.peek (rb : RingBuffer) (count : ℕ) : List ℚ :=
  let n := (min (count : ℤ) rb.available).toNat
  (List.range n).map (fun i => rb.buffer.getD ((rb.readPtr + i) % rb.capacity) 0)

/-- `clear()`: reset cursors and `available`. -/
def RingBuffer.clear (rb : RingBuffer) : RingBuffer :=
  { rb with readPtr := 0, writePtr := 0, available := 0 }

/-- The abstract FIFO content of the buffer: the `available` unread
samples starting at `readPtr`, oldest first. -/
def RingBuffer.contents (rb : RingBuffer) : List ℚ :=
  (List.range rb.available.toNat).map
    (fun i => rb.buffer.getD ((rb.readPtr + i) % rb.capacity) 0)

/-- Well-formedness of a ring buffer state, as maintained by the class:
backing array has length `capacity`, `readPtr` is in range, `writePtr`
is `readPtr + available (mod capacity)` and `available ∈ [0, capacity]`. -/
def RingBuffer.Valid (rb : RingBuffer) : Prop :=
  rb.buffer.length = rb.capacity ∧
  rb.readPtr < rb.capacity ∧
  rb.writePtr = (rb.readPtr + rb.available.toNat) % rb.capacity ∧
  0 ≤ rb.available ∧
  rb.available ≤ (rb.capacity : ℤ)

instance (rb : RingBuffer) : Decidable rb.Valid := by
  unfold RingBuffer.Valid
  infer_instance

/-- One ring-buffer operation, as enumerated by the spec claim. -/
inductive RBOp where
  | write (samples : List ℚ)
  | writeOverflow (samples : List ℚ)
  | read (count : ℕ)
  | readOne
  | peek (count : ℕ)
  | clear
deriving DecidableEq

/-- Apply one operation to the state (`peek` does not change state). -/
def applyOp (rb : RingBuffer) : RBOp → RingBuffer
  | .write s => (rb.write s).1
  | .writeOverflow s => (rb.writeOverflow s).1
  | .read n => (rb.read n).1
  | .readOne => rb.readOne.1
  | .peek _ => rb
  | .clear => rb.clear

/-- Run a sequence of operations from a given state. -/
def runOps (rb : RingBuffer) (ops : List RBOp) : RingBuffer :=
  ops.foldl applyOp rb

/-- One step of an unbounded FIFO queue with eviction at capacity `C`:
the abstract behaviour of `overflowStep` on `contents`. -/
def pushEvict (C : ℕ) (q : List ℚ) (x : ℚ) : List ℚ :=
  if C ≤ q.length then q.drop 1 ++ [x] else q ++ [x]

/-! ### Viseme tables (translated from src/src/core/visemes.js) -/

/-- Association-list lookup mirroring JS object property access
(`obj[key]`, `undefined` when absent). -/
def objGet {β : Type} : List (String × β) → String → Option β
  | [], _ => none
  | p :: rest, k => if p.1 = k then some p.2 else objGet rest k

/-- Association-list update mirroring JS object property assignment
(`obj[key] = value`): overwrite in place if present, else append. -/
def objSet {β : Type} (m : List (String × β)) (k : String) (v : β) :
    List (String × β) :=
  if (objGet m k).isSome then
    m.map (fun p => if p.1 = k then (k, v) else p)
  else m ++ [(k, v)]

/-- One entry of `EXTENDED_VISEMES`. -/
structure ExtendedVisemeDef where
  label : String
  description : String
deriving DecidableEq

/-- `EXTENDED_VISEMES`: the 15-shape extended set. -/
def EXTENDED_VISEMES : List (String × ExtendedVisemeDef) := [
  ("sil", ⟨"Silent", "Mouth closed, neutral"⟩),
  ("PP", ⟨"P/B/M", "Lips pressed together"⟩),
  ("FF", ⟨"F/V", "Lower lip to upper teeth"⟩),
  ("TH", ⟨"TH", "Tongue between teeth"⟩),
  ("DD", ⟨"D/T/N/L", "Tongue to upper palate"⟩),
  ("kk", ⟨"K/G", "Back of tongue raised"⟩),
  ("CH", ⟨"CH/SH/J", "Lips pursed forward"⟩),
  ("SS", ⟨"S/Z", "Teeth close, slight smile"⟩),
  ("nn", ⟨"N/NG", "Mouth slightly open, nasal"⟩),
  ("RR", ⟨"R", "Lips slightly rounded"⟩),
  ("aa", ⟨"AA/AH", "Wide open mouth"⟩),
  ("E", ⟨"EH/AE", "Mouth open, slight smile"⟩),
  ("I", ⟨"IH/IY", "Small opening, smile"⟩),
  ("O", ⟨"OH/AO", "Rounded, medium open"⟩),
  ("U", ⟨"UW/OW", "Small rounded opening"⟩)]

/-- `EXTENDED_VISEME_KEYS = Object.keys(EXTENDED_VISEMES)`. -/
def EXTENDED_VISEME_KEYS : List String := EXTENDED_VISEMES.map (fun p => p.1)

/-- One entry of `SIMPLE_VISEMES`. -/
structure SimpleVisemeDef where
  label : String
  extendedMap : List String
deriving DecidableEq

/-- `SIMPLE_VISEMES`: the 6-shape simple set with its extended-map lists. -/
def SIMPLE_VISEMES : List (String × SimpleVisemeDef) := [
  ("A", ⟨"Rest / M/B/P closed", ["sil"]⟩),
  ("B", ⟨"M / B / P", ["PP", "nn"]⟩),
  ("C", ⟨"EE / S / soft sounds", ["E", "I", "SS"]⟩),
  ("D", ⟨"AH / wide open", ["aa", "DD", "kk"]⟩),
  ("E", ⟨"OH / round", ["O", "RR", "CH"]⟩),
  ("F", ⟨"OO / F / V / tight", ["FF", "TH", "U"]⟩)]

/-- `SIMPLE_VISEME_KEYS = Object.keys(SIMPLE_VISEMES)`. -/
def SIMPLE_VISEME_KEYS : List String := SIMPLE_VISEMES.map (fun p => p.1)

/-- `EXTENDED_TO_SIMPLE`, built by the module-level loop: for each simple
key, assign it to every extended key of its `extendedMap`. -/
def EXTENDED_TO_SIMPLE : List (String × String) :=
  SIMPLE_VISEMES.foldl
    (fun m p => p.2.extendedMap.foldl (fun m2 e => objSet m2 e p.1) m) []

/-- `TRANSITION_WEIGHTS`: per-pair blend-speed coefficients. -/
def TRANSITION_WEIGHTS : List (String × List (String × ℚ)) := [
  ("sil", [("aa", 3/10), ("E", 3/10), ("I", 3/10), ("O", 3/10), ("U", 3/10),
           ("PP", 2/10), ("FF", 2/10)]),
  ("aa", [("sil", 4/10), ("E", 5/10), ("O", 6/10), ("I", 5/10),
          ("PP", 3/10), ("SS", 3/10)]),
  ("PP", [("aa", 2/10), ("sil", 2/10), ("E", 3/10), ("FF", 4/10)]),
  ("FF", [("aa", 3/10), ("PP", 4/10), ("sil", 2/10)]),
  ("SS", [("sil", 2/10), ("aa", 3/10), ("CH", 6/10)])]

/-- `getTransitionWeight(from, to)`: nested lookup with default 0.35. -/
def getTransitionWeight (fromV toV : String) : ℚ :=
  ((objGet TRANSITION_WEIGHTS fromV).bind (fun m => objGet m toV)).getD (35/100)

/-- Mouth shape parameters (`open` is a Lean keyword, rendered `opn`). -/
structure Shape where
  opn : ℚ
  width : ℚ
  round : ℚ
deriving DecidableEq

/-- `VISEME_SHAPES`: static shape parameters per viseme. -/
def VISEME_SHAPES : List (String × Shape) := [
  ("sil", ⟨0, 50/100, 0⟩),
  ("PP", ⟨0, 40/100, 0⟩),
  ("FF", ⟨5/100, 55/100, 0⟩),
  ("TH", ⟨10/100, 50/100, 0⟩),
  ("DD", ⟨20/100, 50/100, 0⟩),
  ("kk", ⟨25/100, 45/100, 0⟩),
  ("CH", ⟨15/100, 35/100, 6/10⟩),
  ("SS", ⟨5/100, 60/100, 0⟩),
  ("nn", ⟨15/100, 50/100, 0⟩),
  ("RR", ⟨20/100, 40/100, 4/10⟩),
  ("aa", ⟨90/100, 60/100, 0⟩),
  ("E", ⟨50/100, 65/100, 0⟩),
  ("I", ⟨25/100, 70/100, 0⟩),
  ("O", ⟨60/100, 40/100, 8/10⟩),
  ("U", ⟨20/100, 30/100, 9/10⟩)]

/-- `VISEME_SHAPES[v] || VISEME_SHAPES.sil` (the fallback literal is the
`sil` entry of the table). -/
def shapeOrSil (v : String) : Shape :=
  (objGet VISEME_SHAPES v).getD ⟨0, 50/100, 0⟩

/-! ### FrequencyAnalyzer (translated from `class FrequencyAnalyzer`)

The analyser's inputs per cycle are modelled as the raw RMS amplitude and
raw band energies that `calculateRMS` / `extractBandEnergies` compute from
the `AnalyserNode` snapshot; the analysis step is a pure state-transition
function of those inputs. -/

/-- The five band energies `{sub, low, mid, high, veryHigh}`. -/
structure Bands where
  sub : ℚ
  low : ℚ
  mid : ℚ
  high : ℚ
  veryHigh : ℚ
deriving DecidableEq

/-- Modelled from the spec: `smoothValue` from `src/utils/audio-utils.js`
(the module is not present in the sources); §4.5 gives the exponential
smoothing `smoothed = smoothed + (raw - smoothed) * (1 - factor)`. -/
def smoothValue (smoothed raw factor : ℚ) : ℚ :=
  smoothed + (raw - smoothed) * (1 - factor)

/-- Modelled from the spec: `clamp` from `src/utils/audio-utils.js`
(the module is not present in the sources); clamps a value into
`[lo, hi]`. -/
def clamp (x lo hi : ℚ) : ℚ :=
  max lo (min x hi)

/-- Analyzer options used by the analysis path (`fftSize` and
`energySmoothing` only configure the external `AnalyserNode` and do not
appear in the analysis step). -/
structure AnalyzerOpts where
  silenceThreshold : ℚ
  smoothingFactor : ℚ
  holdFrames : ℕ
  intensitySmoothing : ℚ
deriving DecidableEq

/-- The `DEFAULTS` analyzer configuration. -/
def DEFAULTS : AnalyzerOpts :=
  { silenceThreshold := 15/1000
    smoothingFactor := 35/100
    holdFrames := 2
    intensitySmoothing := 2/10 }

/-- Mutable analyzer state (the `this._*` fields). -/
structure AnalyzerState where
  currentViseme : String
  currentIntensity : ℚ
  holdCounter : ℕ
  smoothedAmplitude : ℚ
  smoothedBands : Bands
  previousViseme : String
  transitionProgress : ℚ
  frameCount : ℕ
deriving DecidableEq

/-- Constructor / `reset()` state. -/
def AnalyzerState.init : AnalyzerState :=
  { currentViseme := "sil"
    currentIntensity := 0
    holdCounter := 0
    smoothedAmplitude := 0
    smoothedBands := ⟨0, 0, 0, 0, 0⟩
    previousViseme := "sil"
    transitionProgress := 1
    frameCount := 0 }

/-- Result of `_classifyViseme`. -/
structure Classified where
  viseme : String
  confidence : ℚ
deriving DecidableEq

/-- `_classifyViseme(bands, intensity)`: the heuristic first-match-wins
cascade.  The plosive rule also reads `this._smoothedAmplitude`, passed
here as `smoothedAmplitude`. -/
def classifyViseme (bands : Bands) (intensity smoothedAmplitude : ℚ) : Classified :=
  let totalEnergy := bands.sub + bands.low + bands.mid + bands.high + bands.veryHigh
  if totalEnergy < 1/100 then ⟨"sil", 9/10⟩
  else
    let sibilantScore := (bands.high + bands.veryHigh) / (totalEnergy + 1/1000)
    if sibilantScore > 55/100 ∧ bands.high > 15/100 then
      if bands.veryHigh > bands.high * (8/10) then ⟨"SS", sibilantScore⟩
      else ⟨"CH", sibilantScore * (85/100)⟩
    else
      let fricativeScore := (bands.mid + bands.high) / (totalEnergy + 1/1000)
      if fricativeScore > 5/10 ∧ bands.high > 1/10 ∧ bands.low < 15/100 then
        ⟨"FF", fricativeScore * (8/10)⟩
      else
        let flatness := 1 - |bands.high - bands.low| / (totalEnergy + 1/1000)
        if intensity > 6/10 ∧ flatness > 7/10 ∧ smoothedAmplitude > 8/100 then
          if bands.low > bands.mid then ⟨"PP", 6/10⟩ else ⟨"DD", 6/10⟩
        else if bands.sub > 2/10 ∧ bands.low > 15/100 ∧ bands.high < 8/100 ∧
            bands.mid < bands.low * (7/10) then ⟨"nn", 65/100⟩
        else if bands.low > 2/10 ∧ bands.mid > 15/100 ∧ intensity > 5/10 then
          ⟨"aa", 7/10⟩
        else if bands.mid > bands.low ∧ bands.mid > 15/100 ∧ intensity > 3/10 then
          ⟨"E", 65/100⟩
        else if bands.sub > bands.mid ∧ bands.low > bands.mid ∧ intensity > 3/10 then
          ⟨"O", 6/10⟩
        else if bands.mid > 1/10 ∧ bands.high > bands.low * (5/10) ∧ intensity > 2/10 then
          ⟨"I", 55/100⟩
        else if bands.sub > 15/100 ∧ bands.high < 5/100 then
          ⟨"U", 5/10⟩
        else if intensity > 5/10 then ⟨"aa", 4/10⟩
        else if intensity > 3/10 then ⟨"E", 35/100⟩
        else if intensity > 15/100 then ⟨"I", 3/10⟩
        else ⟨"sil", 5/10⟩

/-- The `transition` part of a frame (`from`/`to` are Lean keywords,
rendered `fromV`/`toV`). -/
structure TransitionInfo where
  fromV : String
  toV : String
  progress : ℚ
deriving DecidableEq

/-- A `VisemeFrame` as returned by `analyze()`. -/
structure VisemeFrame where
  viseme : String
  simpleViseme : String
  intensity : ℚ
  confidence : ℚ
  amplitude : ℚ
  bands : Bands
  shape : Shape
  transition : TransitionInfo
  frame : ℕ
deriving DecidableEq

/-- `_emitViseme(viseme, intensity, bands, confidence = 0.5)`: update the
transition state, smooth intensity, and build the frame.  The JS default
`confidence = 0.5` is made explicit at the call sites. -/
def emitViseme (opts : AnalyzerOpts) (st : AnalyzerState) (viseme : String)
    (intensity : ℚ) (bands : Bands) (confidence : ℚ) :
    AnalyzerState × VisemeFrame :=
  let ptc : String × String × ℚ :=
    if viseme ≠ st.currentViseme then
      (st.currentViseme, viseme, 0)
    else
      (st.previousViseme, st.currentViseme,
       min 1 (st.transitionProgress +
         (1 - getTransitionWeight st.previousViseme st.currentViseme) * (3/10)))
  let prev := ptc.1
  let curr := ptc.2.1
  let tp := ptc.2.2
  let newIntensity := smoothValue st.currentIntensity intensity opts.intensitySmoothing
  let prevShape := shapeOrSil prev
  let currShape := shapeOrSil curr
  ({ st with
      previousViseme := prev
      currentViseme := curr
      transitionProgress := tp
      currentIntensity := newIntensity },
   { viseme := curr
     simpleViseme := (objGet EXTENDED_TO_SIMPLE curr).getD "A"
     intensity := newIntensity
     confidence := confidence
     amplitude := st.smoothedAmplitude
     bands := st.smoothedBands
     shape :=
       { opn := prevShape.opn + (currShape.opn - prevShape.opn) * tp
         width := prevShape.width + (currShape.width - prevShape.width) * tp
         round := prevShape.round + (currShape.round - prevShape.round) * tp }
     transition := { fromV := prev, toV := curr, progress := tp }
     frame := st.frameCount })

/-- Per-key exponential smoothing of the band energies (the
`for (const key of Object.keys(rawBands))` loop). -/
def smoothBands (opts : AnalyzerOpts) (old rawB : Bands) : Bands :=
  { sub := smoothValue old.sub rawB.sub opts.smoothingFactor
    low := smoothValue old.low rawB.low opts.smoothingFactor
    mid := smoothValue old.mid rawB.mid opts.smoothingFactor
    high := smoothValue old.high rawB.high opts.smoothingFactor
    veryHigh := smoothValue old.veryHigh rawB.veryHigh opts.smoothingFactor }

/-- The data-gathering prefix of `analyze()`: bump the frame counter and
smooth amplitude and band energies. -/
def afterSmoothing (opts : AnalyzerOpts) (st : AnalyzerState)
    (rawAmplitude : ℚ) (rawBands : Bands) : AnalyzerState :=
  { st with
    frameCount := st.frameCount + 1
    smoothedAmplitude := smoothValue st.smoothedAmplitude rawAmplitude opts.smoothingFactor
    smoothedBands := smoothBands opts st.smoothedBands rawBands }

/-- `analyze()`: smoothing, silence gate, classification, hold-off,
emission.  Inputs are the raw amplitude and raw band energies computed
from the current audio snapshot. -/
def analyze (opts : AnalyzerOpts) (st : AnalyzerState)
    (rawAmplitude : ℚ) (rawBands : Bands) : AnalyzerState × VisemeFrame :=
  let st2 := afterSmoothing opts st rawAmplitude rawBands
  if st2.smoothedAmplitude < opts.silenceThreshold then
    emitViseme opts st2 "sil" 0 st2.smoothedBands (1/2)
  else
    let intensity := clamp (st2.smoothedAmplitude * 3) 0 1
    let c := classifyViseme st2.smoothedBands intensity st2.smoothedAmplitude
    if c.viseme ≠ st2.currentViseme then
      if st2.holdCounter + 1 < opts.holdFrames then
        emitViseme opts { st2 with holdCounter := st2.holdCounter + 1 }
          st2.currentViseme intensity st2.smoothedBands (1/2)
      else
        emitViseme opts { st2 with holdCounter := 0 }
          c.viseme intensity st2.smoothedBands c.confidence
    else
      emitViseme opts { st2 with holdCounter := 0 }
        c.viseme intensity st2.smoothedBands c.confidence

/-- The hold-off state machine in isolation: state is
(held label, hold counter), input is the classifier's proposal for the
cycle; mirrors the hold-off block of `analyze()` together with the label
update performed by `_emitViseme`. -/
def holdStep (holdFrames : ℕ) (s : String × ℕ) (proposal : String) : String × ℕ :=
  if proposal ≠ s.1 then
    if s.2 + 1 < holdFrames then (s.1, s.2 + 1)
    else (proposal, 0)
  else (s.1, 0)

/-- Iterate `holdStep` over a sequence of per-cycle proposals. -/
def holdRun (holdFrames : ℕ) (s : String × ℕ) (ps : List String) : String × ℕ :=
  ps.foldl (holdStep holdFrames) s

/-- All five band energies are non-negative (as produced by
`extractBandEnergies` from byte-valued magnitudes). -/
def Bands.Nonneg (b : Bands) : Prop :=
  0 ≤ b.sub ∧ 0 ≤ b.low ∧ 0 ≤ b.mid ∧ 0 ≤ b.high ∧ 0 ≤ b.veryHigh

instance (b : Bands) : Decidable b.Nonneg := by
  unfold Bands.Nonneg
  infer_instance

/-- The labels that `_classifyViseme` can return. -/
def CLASSIFIER_LABELS : List String :=
  ["sil", "SS", "CH", "FF", "PP", "DD", "nn", "aa", "E", "O", "I", "U"]


/-! ### Generic helper lemmas -/

theorem getD_set_self (l : List ℚ) (i : ℕ) (x : ℚ) (h : i < l.length) :
    (l.set i x).getD i 0 = x := by
  induction l generalizing i with
  | nil => simp at h
  | cons a t ih =>
    cases i with
    | zero => simp
    | succ n =>
      simp only [List.set, List.getD_cons_succ]
      exact ih n (by simpa using h)

theorem getD_set_other (l : List ℚ) (i j : ℕ) (x : ℚ) (h : i ≠ j) :
    (l.set i x).getD j 0 = l.getD j 0 := by
  induction l generalizing i j with
  | nil => simp
  | cons a t ih =>
    cases i with
    | zero =>
      cases j with
      | zero => exact absurd rfl h
      | succ m => simp
    | succ n =>
      cases j with
      | zero => simp
      | succ m =>
        simp only [List.set, List.getD_cons_succ]
        exact ih n m (by omega)

theorem length_set_rb (l : List ℚ) (i : ℕ) (x : ℚ) :
    (l.set i x).length = l.length := by
  simp

theorem mod_index_ne (cap base i j : ℕ) (hi : i < cap) (hj : j < cap) (hij : i ≠ j) :
    (base + i) % cap ≠ (base + j) % cap := by
  intro h
  have h2 : i ≡ j [MOD cap] := Nat.ModEq.add_left_cancel' base h
  have h3 : i % cap = j % cap := h2
  rw [Nat.mod_eq_of_lt hi, Nat.mod_eq_of_lt hj] at h3
  exact hij h3

theorem objGet_mem {β : Type} (m : List (String × β)) (k : String) (v : β)
    (h : objGet m k = some v) : (k, v) ∈ m := by
  induction m with
  | nil => simp [objGet] at h
  | cons p rest ih =>
    obtain ⟨a, b⟩ := p
    by_cases hk : a = k
    · rw [objGet, if_pos hk] at h
      cases h
      subst hk
      exact List.mem_cons_self _ _
    · rw [objGet, if_neg hk] at h
      exact List.mem_cons_of_mem _ (ih h)

theorem getD_range_map (s : List ℚ) :
    (List.range s.length).map (fun i => s.getD i 0) = s := by
  induction s with
  | nil => simp
  | cons x t ih =>
    rw [List.length_cons, List.range_succ_eq_map, List.map_cons, List.map_map]
    have h2 : ((fun i => (x :: t).getD i 0) ∘ Nat.succ) = (fun i => t.getD i 0) := by
      funext i
      simp [Function.comp]
    rw [h2, ih]
    simp

/-! ### Ring buffer: structural lemmas -/

theorem writeSamples_fields (s : List ℚ) (rb : RingBuffer) :
    (writeSamples rb s).capacity = rb.capacity ∧
    (writeSamples rb s).available = rb.available ∧
    (writeSamples rb s).readPtr = rb.readPtr ∧
    (writeSamples rb s).buffer.length = rb.buffer.length := by
  induction s generalizing rb with
  | nil => simp [writeSamples]
  | cons x t ih =>
    rw [writeSamples]
    have h := ih { rb with
      buffer := rb.buffer.set rb.writePtr x
      writePtr := (rb.writePtr + 1) % rb.capacity }
    simpa using h

theorem readSamples_fields (n : ℕ) (rb : RingBuffer) :
    (readSamples rb n).1.capacity = rb.capacity ∧
    (readSamples rb n).1.available = rb.available ∧
    (readSamples rb n).1.writePtr = rb.writePtr ∧
    (readSamples rb n).1.buffer = rb.buffer := by
  induction n generalizing rb with
  | zero => simp [readSamples]
  | succ m ih =>
    simpa [readSamples] using ih _

theorem overflowStep_fields (rb : RingBuffer) (x : ℚ) :
    (overflowStep rb x).1.capacity = rb.capacity ∧
    (overflowStep rb x).1.available =
      (if rb.available ≥ (rb.capacity : ℤ) then rb.available else rb.available + 1) ∧
    (overflowStep rb x).1.buffer.length = rb.buffer.length := by
  unfold overflowStep
  split <;> simp

theorem writeOverflow_avail (s : List ℚ) (rb : RingBuffer)
    (h0 : 0 ≤ rb.available) (h1 : rb.available ≤ (rb.capacity : ℤ)) :
    0 ≤ (rb.writeOverflow s).1.available ∧
    (rb.writeOverflow s).1.available ≤ (rb.capacity : ℤ) ∧
    (rb.writeOverflow s).1.capacity = rb.capacity := by
  induction s generalizing rb with
  | nil => exact ⟨h0, h1, rfl⟩
  | cons x t ih =>
    obtain ⟨hc, ha, -⟩ := overflowStep_fields rb x
    have h0' : 0 ≤ (overflowStep rb x).1.available := by
      rw [ha]; split <;> omega
    have h1' : (overflowStep rb x).1.available ≤ ((overflowStep rb x).1.capacity : ℤ) := by
      rw [ha, hc]; split <;> omega
    obtain ⟨g0, g1, g2⟩ := ih (overflowStep rb x).1 h0' h1'
    rw [hc] at g1 g2
    simp only [RingBuffer.writeOverflow]
    exact ⟨g0, g1, g2⟩

theorem applyOp_avail (rb : RingBuffer) (op : RBOp)
    (h0 : 0 ≤ rb.available) (h1 : rb.available ≤ (rb.capacity : ℤ)) :
    0 ≤ (applyOp rb op).available ∧
    (applyOp rb op).available ≤ ((applyOp rb op).capacity : ℤ) ∧
    (applyOp rb op).capacity = rb.capacity := by
  cases op with
  | write s =>
    have hf := writeSamples_fields (s.take (min (s.length : ℤ) rb.free).toNat) rb
    simp only [applyOp, RingBuffer.write, hf.1]
    refine ⟨?_, ?_, trivial⟩ <;> simp only [RingBuffer.free] <;> omega
  | writeOverflow s =>
    have h := writeOverflow_avail s rb h0 h1
    exact ⟨h.1, by simp only [applyOp]; rw [h.2.2]; exact h.2.1, h.2.2⟩
  | read n =>
    have hf := readSamples_fields (min (n : ℤ) rb.available).toNat rb
    simp only [applyOp, RingBuffer.read, hf.1]
    refine ⟨?_, ?_, trivial⟩ <;> omega
  | readOne =>
    simp only [applyOp, RingBuffer.readOne]
    split
    · exact ⟨h0, h1, rfl⟩
    · refine ⟨?_, ?_, rfl⟩ <;> simp <;> omega
  | peek n => exact ⟨h0, h1, rfl⟩
  | clear => exact ⟨le_refl 0, by simp [applyOp, RingBuffer.clear], rfl⟩

theorem runOps_avail (ops : List RBOp) (rb : RingBuffer)
    (h0 : 0 ≤ rb.available) (h1 : rb.available ≤ (rb.capacity : ℤ)) :
    0 ≤ (runOps rb ops).available ∧
    (runOps rb ops).available ≤ ((runOps rb ops).capacity : ℤ) ∧
    (runOps rb ops).capacity = rb.capacity := by
  induction ops generalizing rb with
  | nil => exact ⟨h0, h1, rfl⟩
  | cons op rest ih =>
    obtain ⟨h0', h1', hc⟩ := applyOp_avail rb op h0 h1
    have h := ih (applyOp rb op) h0' h1'
    have hr : runOps rb (op :: rest) = runOps (applyOp rb op) rest := rfl
    rw [hr]
    exact ⟨h.1, h.2.1, by rw [h.2.2, hc]⟩

/-- C1: for every sequence of RingBuffer operations (write, writeOverflow,
read, readOne, peek, clear) starting from a freshly constructed buffer of
capacity C > 0, the field `available` always satisfies
0 ≤ available ≤ C after every operation. -/
theorem available_in_range_of_runOps (C : ℕ) (ops : List RBOp) (hC : 0 < C) :
    0 ≤ (runOps (RingBuffer.new C) ops).available ∧
    (runOps (RingBuffer.new C) ops).available ≤ (C : ℤ) := by
  have h := runOps_avail ops (RingBuffer.new C) (by simp [RingBuffer.new])
    (by simp [RingBuffer.new])
  refine ⟨h.1, ?_⟩
  have hc : (runOps (RingBuffer.new C) ops).capacity = C := h.2.2
  have h2 := h.2.1
  rw [hc] at h2
  exact h2

/-- Witness for C1 at a concrete operation sequence. -/
theorem available_in_range_of_runOps_witness :
    0 ≤ (runOps (RingBuffer.new 4) [RBOp.write [1, 2, 3], RBOp.read 2,
        RBOp.writeOverflow [5, 6, 7, 8, 9], RBOp.readOne, RBOp.peek 3,
        RBOp.clear]).available ∧
    (runOps (RingBuffer.new 4) [RBOp.write [1, 2, 3], RBOp.read 2,
        RBOp.writeOverflow [5, 6, 7, 8, 9], RBOp.readOne, RBOp.peek 3,
        RBOp.clear]).available ≤ (4 : ℤ) :=
  available_in_range_of_runOps 4 [RBOp.write [1, 2, 3], RBOp.read 2,
    RBOp.writeOverflow [5, 6, 7, 8, 9], RBOp.readOne, RBOp.peek 3,
    RBOp.clear] (by decide)

/-! ### Ring buffer: content lemmas for the FIFO round trip -/

theorem writeSamples_window (s : List ℚ) (rb : RingBuffer)
    (hlen : rb.buffer.length = rb.capacity)
    (hwp : rb.writePtr < rb.capacity)
    (hs : s.length ≤ rb.capacity) :
    (∀ i, i < s.length →
      (writeSamples rb s).buffer.getD ((rb.writePtr + i) % rb.capacity) 0 =
        s.getD i 0) ∧
    (∀ p, p < rb.capacity → (∀ i, i < s.length → p ≠ (rb.writePtr + i) % rb.capacity) →
      (writeSamples rb s).buffer.getD p 0 = rb.buffer.getD p 0) := by
  induction s generalizing rb with
  | nil =>
    exact ⟨fun i hi => absurd hi (by simp), fun p _ _ => by simp [writeSamples]⟩
  | cons x t ih =>
    have hcap : 0 < rb.capacity := Nat.lt_of_le_of_lt (Nat.zero_le _) hwp
    have hs' : t.length + 1 ≤ rb.capacity := by simpa using hs
    set rb1 : RingBuffer :=
      { rb with
        buffer := rb.buffer.set rb.writePtr x
        writePtr := (rb.writePtr + 1) % rb.capacity } with hrb1
    have hw1 : writeSamples rb (x :: t) = writeSamples rb1 t := by
      rw [writeSamples]
    have hlen1 : rb1.buffer.length = rb1.capacity := by
      simp [hrb1, hlen]
    have hwp1 : rb1.writePtr < rb1.capacity := by
      simp only [hrb1]
      exact Nat.mod_lt _ hcap
    have ht : t.length ≤ rb1.capacity := by
      simp only [hrb1]
      omega
    obtain ⟨ihw, ihp⟩ := ih rb1 hlen1 hwp1 ht
    -- positions written by the tail, expressed from the original write pointer
    have hshift : ∀ j : ℕ, (rb1.writePtr + j) % rb1.capacity =
        (rb.writePtr + (j + 1)) % rb.capacity := by
      intro j
      simp only [hrb1]
      rw [Nat.mod_add_mod, Nat.add_assoc, Nat.add_comm 1 j]
    have hnotin : ∀ j, j < t.length →
        rb.writePtr ≠ (rb1.writePtr + j) % rb1.capacity := by
      intro j hj heq
      have hne := mod_index_ne rb.capacity rb.writePtr 0 (j + 1) hcap
        (by omega) (by omega)
      rw [Nat.add_zero, Nat.mod_eq_of_lt hwp] at hne
      rw [hshift j] at heq
      exact hne heq
    constructor
    · intro i hi
      cases i with
      | zero =>
        rw [hw1]
        have hp0 : (rb.writePtr + 0) % rb.capacity = rb.writePtr := by
          rw [Nat.add_zero, Nat.mod_eq_of_lt hwp]
        rw [hp0]
        have hpres := ihp rb.writePtr hwp hnotin
        rw [hpres]
        simp only [hrb1]
        rw [getD_set_self _ _ _ (by omega)]
        simp
      | succ i =>
        rw [hw1]
        have h := ihw i (by simpa using hi)
        rw [hshift i] at h
        simpa using h
    · intro p hp hout
      rw [hw1]
      have hout1 : ∀ j, j < t.length → p ≠ (rb1.writePtr + j) % rb1.capacity := by
        intro j hj
        rw [hshift j]
        exact hout (j + 1) (by simpa using Nat.succ_lt_succ hj)
      have hpres := ihp p hp hout1
      rw [hpres]
      simp only [hrb1]
      have hne : rb.writePtr ≠ p := by
        intro heq
        refine hout 0 (by simp) ?_
        rw [Nat.add_zero, Nat.mod_eq_of_lt hwp]
        exact heq.symm
      exact getD_set_other _ _ _ _ hne

theorem readSamples_spec (n : ℕ) (rb : RingBuffer)
    (hrp : rb.readPtr < rb.capacity) :
    (readSamples rb n).1 = { rb with readPtr := (rb.readPtr + n) % rb.capacity } ∧
    (readSamples rb n).2 =
      (List.range n).map (fun i => rb.buffer.getD ((rb.readPtr + i) % rb.capacity) 0) := by
  induction n generalizing rb with
  | zero =>
    refine ⟨?_, by simp [readSamples]⟩
    rw [readSamples]
    have : (rb.readPtr + 0) % rb.capacity = rb.readPtr := by
      simp [Nat.mod_eq_of_lt hrp]
    rw [this]
  | succ m ih =>
    have hcap : 0 < rb.capacity := Nat.lt_of_le_of_lt (Nat.zero_le _) hrp
    set rb1 : RingBuffer := { rb with readPtr := (rb.readPtr + 1) % rb.capacity } with hrb1
    have hrp1 : rb1.readPtr < rb1.capacity := Nat.mod_lt _ hcap
    obtain ⟨ih1, ih2⟩ := ih rb1 hrp1
    have hshift : ∀ j : ℕ, (rb1.readPtr + j) % rb1.capacity =
        (rb.readPtr + (j + 1)) % rb.capacity := by
      intro j
      simp only [hrb1]
      rw [Nat.mod_add_mod, Nat.add_assoc, Nat.add_comm 1 j]
    constructor
    · rw [readSamples]
      simp only [ih1, hrb1]
      congr 1
      rw [Nat.mod_add_mod, Nat.add_assoc, Nat.add_comm 1 m]
    · rw [readSamples]
      simp only [ih2, List.range_succ_eq_map, List.map_cons, List.map_map]
      congr 1
      · simp [Nat.mod_eq_of_lt hrp]
      · apply List.map_congr_left
        intro j hj
        simp only [Function.comp]
        rw [hshift j]

/-- C2 counterexample: a reachable, valid state with one unread sample and
free space 1; writing `[5]` (length ≤ free) and reading back a destination
of length 1 yields the older sample `[9]`, not `[5]`. -/
theorem write_read_roundtrip_cex :
    (((RingBuffer.new 2).write [9]).1).Valid ∧
    (1 : ℤ) ≤ (((RingBuffer.new 2).write [9]).1).free ∧
    ((((RingBuffer.new 2).write [9]).1.write [5]).1.read 1).2 = [9] ∧
    ((((RingBuffer.new 2).write [9]).1.write [5]).1.read 1).2 ≠ [5] := by decide

/-- C2 (amended): for every valid and *empty* RingBuffer state and every
sample list s with s.length ≤ free space, write(s) followed by a read into
a destination of length s.length returns exactly s, in order (FIFO). -/
theorem write_read_roundtrip_from_empty (rb : RingBuffer) (s : List ℚ)
    (hv : rb.Valid) (he : rb.available = 0)
    (hlen : (s.length : ℤ) ≤ rb.free) :
    ((rb.write s).1.read s.length).2 = s := by
  obtain ⟨hbl, hrp, hwp, h0, h1⟩ := hv
  have hcap : 0 < rb.capacity := Nat.lt_of_le_of_lt (Nat.zero_le _) hrp
  have hlenN : s.length ≤ rb.capacity := by
    simp only [RingBuffer.free, he, sub_zero] at hlen
    exact_mod_cast hlen
  have hwp0 : rb.writePtr = rb.readPtr := by
    rw [hwp, he]
    simp [Nat.mod_eq_of_lt hrp]
  have htw : min (s.length : ℤ) rb.free = (s.length : ℤ) := min_eq_left hlen
  have hstep : rb.write s =
      ({ writeSamples rb s with available := rb.available + (s.length : ℤ) },
       (s.length : ℤ)) := by
    rw [RingBuffer.write]
    simp only [htw, Int.toNat_natCast, List.take_length]
  set rbW : RingBuffer :=
    { writeSamples rb s with available := rb.available + (s.length : ℤ) } with hrbW
  have hWfields := writeSamples_fields s rb
  have hWcap : rbW.capacity = rb.capacity := hWfields.1
  have hWrp : rbW.readPtr = rb.readPtr := hWfields.2.2.1
  have havW : rbW.available = (s.length : ℤ) := by
    show rb.available + (s.length : ℤ) = (s.length : ℤ)
    rw [he]
    ring
  have hrp' : rbW.readPtr < rbW.capacity := by
    rw [hWrp, hWcap]
    exact hrp
  have hread : (rbW.read s.length).2 = (readSamples rbW s.length).2 := by
    simp only [RingBuffer.read, he, zero_add, min_self, Int.toNat_natCast]
  have hmap : ∀ i, i < s.length →
      rbW.buffer.getD ((rbW.readPtr + i) % rbW.capacity) 0 = s.getD i 0 := by
    intro i hi
    have hwin := (writeSamples_window s rb hbl (by rw [hwp0]; exact hrp) hlenN).1 i hi
    rw [hWrp, hWcap, ← hwp0]
    exact hwin
  calc ((rb.write s).1.read s.length).2
      = (rbW.read s.length).2 := by rw [hstep]
    _ = (readSamples rbW s.length).2 := hread
    _ = (List.range s.length).map
          (fun i => rbW.buffer.getD ((rbW.readPtr + i) % rbW.capacity) 0) :=
        (readSamples_spec s.length rbW hrp').2
    _ = (List.range s.length).map (fun i => s.getD i 0) :=
        List.map_congr_left (fun i hi => hmap i (List.mem_range.mp hi))
    _ = s := getD_range_map s

/-- Witness for the amended C2 at a concrete buffer and sample list. -/
theorem write_read_roundtrip_from_empty_witness :
    (((RingBuffer.new 3).write [1, 2]).1.read 2).2 = [1, 2] := by
  have h := write_read_roundtrip_from_empty (RingBuffer.new 3) [1, 2]
    (by decide) (by decide) (by decide)
  exact h

/-! ### Ring buffer: overwrite eviction lemmas -/

theorem overflowStep_snd (rb : RingBuffer) (x : ℚ) :
    (overflowStep rb x).2 = true ↔ (rb.capacity : ℤ) ≤ rb.available := by
  unfold overflowStep
  split <;> simp_all

theorem writeOverflow_count (s : List ℚ) (rb : RingBuffer)
    (h0 : 0 ≤ rb.available) (h1 : rb.available ≤ (rb.capacity : ℤ)) :
    ((rb.writeOverflow s).2 : ℤ) =
      (s.length : ℤ) - min (s.length : ℤ) ((rb.capacity : ℤ) - rb.available) := by
  induction s generalizing rb with
  | nil =>
    simp only [RingBuffer.writeOverflow, List.length_nil, Nat.cast_zero]
    omega
  | cons x t ih =>
    obtain ⟨hc, ha, -⟩ := overflowStep_fields rb x
    have h0' : 0 ≤ (overflowStep rb x).1.available := by
      rw [ha]; split <;> omega
    have h1' : (overflowStep rb x).1.available ≤ ((overflowStep rb x).1.capacity : ℤ) := by
      rw [ha, hc]; split <;> omega
    have hi := ih (overflowStep rb x).1 h0' h1'
    rw [hc] at hi
    simp only [RingBuffer.writeOverflow, List.length_cons]
    by_cases hfull : (rb.capacity : ℤ) ≤ rb.available
    · rw [if_pos ((overflowStep_snd rb x).mpr hfull)]
      have ha' : (overflowStep rb x).1.available = rb.available := by
        rw [ha, if_pos hfull]
      rw [ha'] at hi
      push_cast
      omega
    · rw [if_neg (fun hb => hfull ((overflowStep_snd rb x).mp hb))]
      have ha' : (overflowStep rb x).1.available = rb.available + 1 := by
        rw [ha, if_neg hfull]
      rw [ha'] at hi
      push_cast
      omega

theorem writeOverflow_avail_formula (s : List ℚ) (rb : RingBuffer)
    (h0 : 0 ≤ rb.available) (h1 : rb.available ≤ (rb.capacity : ℤ)) :
    (rb.writeOverflow s).1.available =
      min ((rb.capacity : ℤ)) (rb.available + (s.length : ℤ)) := by
  induction s generalizing rb with
  | nil =>
    simp only [RingBuffer.writeOverflow, List.length_nil, Nat.cast_zero, add_zero]
    omega
  | cons x t ih =>
    obtain ⟨hc, ha, -⟩ := overflowStep_fields rb x
    have h0' : 0 ≤ (overflowStep rb x).1.available := by
      rw [ha]; split <;> omega
    have h1' : (overflowStep rb x).1.available ≤ ((overflowStep rb x).1.capacity : ℤ) := by
      rw [ha, hc]; split <;> omega
    have hi := ih (overflowStep rb x).1 h0' h1'
    rw [hc] at hi
    simp only [RingBuffer.writeOverflow, List.length_cons]
    rw [hi]
    by_cases hfull : (rb.capacity : ℤ) ≤ rb.available
    · have ha' : (overflowStep rb x).1.available = rb.available := by
        rw [ha, if_pos hfull]
      rw [ha']
      push_cast
      omega
    · have ha' : (overflowStep rb x).1.available = rb.available + 1 := by
        rw [ha, if_neg hfull]
      rw [ha']
      push_cast
      omega

theorem overflowStep_spec (rb : RingBuffer) (x : ℚ) (hv : rb.Valid) :
    (overflowStep rb x).1.Valid ∧
    (overflowStep rb x).1.contents = pushEvict rb.capacity rb.contents x := by
  obtain ⟨hbl, hrp, hwp, h0, h1⟩ := hv
  have hcap : 0 < rb.capacity := Nat.lt_of_le_of_lt (Nat.zero_le _) hrp
  have hclen : rb.contents.length = rb.available.toNat := by
    simp [RingBuffer.contents]
  by_cases hfull : (rb.capacity : ℤ) ≤ rb.available
  · -- eviction branch: the buffer is full
    have havail : rb.available = (rb.capacity : ℤ) := le_antisymm h1 hfull
    have havN : rb.available.toNat = rb.capacity := by omega
    have hwpr : rb.writePtr = rb.readPtr := by
      rw [hwp, havN, Nat.add_mod_right, Nat.mod_eq_of_lt hrp]
    have hres : (overflowStep rb x).1 =
        { buffer := rb.buffer.set rb.readPtr x
          capacity := rb.capacity
          readPtr := (rb.readPtr + 1) % rb.capacity
          writePtr := (rb.readPtr + 1) % rb.capacity
          available := rb.available } := by
      simp only [overflowStep]
      rw [if_pos hfull, hwpr]
    obtain ⟨m, hm⟩ : ∃ m, rb.capacity = m + 1 := ⟨rb.capacity - 1, by omega⟩
    have hrp1 : (rb.readPtr + 1) % rb.capacity < rb.capacity := Nat.mod_lt _ hcap
    constructor
    · rw [hres]
      refine ⟨by simpa using hbl, hrp1, ?_, h0, h1⟩
      show (rb.readPtr + 1) % rb.capacity =
        ((rb.readPtr + 1) % rb.capacity + rb.available.toNat) % rb.capacity
      rw [havN, Nat.add_mod_right, Nat.mod_eq_of_lt hrp1]
    · rw [hres]
      show (List.range rb.available.toNat).map
          (fun i => (rb.buffer.set rb.readPtr x).getD
            (((rb.readPtr + 1) % rb.capacity + i) % rb.capacity) 0) =
        pushEvict rb.capacity rb.contents x
      have hfullq : rb.capacity ≤ rb.contents.length := by
        rw [hclen, havN]
      rw [pushEvict, if_pos hfullq, havN]
      have hpos : ∀ i : ℕ, ((rb.readPtr + 1) % rb.capacity + i) % rb.capacity =
          (rb.readPtr + (1 + i)) % rb.capacity := by
        intro i
        rw [Nat.mod_add_mod, Nat.add_assoc]
      -- left side: split the range at its last index
      have hrange : List.range rb.capacity = List.range m ++ [m] := by
        rw [hm, List.range_succ]
      rw [hrange, List.map_append]
      -- right side: drop the head of the contents
      have hcontents : rb.contents =
          rb.buffer.getD ((rb.readPtr + 0) % rb.capacity) 0 ::
            (List.range m).map
              (fun i => rb.buffer.getD ((rb.readPtr + (i + 1)) % rb.capacity) 0) := by
        rw [RingBuffer.contents, havN, hm, List.range_succ_eq_map, List.map_cons,
          List.map_map]
        rfl
      rw [hcontents]
      simp only [List.drop_succ_cons, List.drop_zero, List.map_cons, List.map_nil]
      congr 1
      · apply List.map_congr_left
        intro i hi
        have hiM : i < m := List.mem_range.mp hi
        rw [hpos i]
        have hne : (rb.readPtr + (1 + i)) % rb.capacity ≠ rb.readPtr := by
          have h2 := mod_index_ne rb.capacity rb.readPtr (1 + i) 0 (by omega) hcap
            (by omega)
          rw [Nat.add_zero, Nat.mod_eq_of_lt hrp] at h2
          exact h2
        rw [getD_set_other _ _ _ _ (fun he => hne he.symm)]
        rw [Nat.add_comm 1 i]
      · rw [hpos m]
        have hposm : (rb.readPtr + (1 + m)) % rb.capacity = rb.readPtr := by
          rw [Nat.add_comm 1 m, ← hm, Nat.add_mod_right, Nat.mod_eq_of_lt hrp]
        rw [hposm]
        rw [getD_set_self _ _ _ (by omega)]
  · -- growth branch: there is free room
    have hlt : rb.available < (rb.capacity : ℤ) := lt_of_not_le hfull
    have hres : (overflowStep rb x).1 =
        { buffer := rb.buffer.set rb.writePtr x
          capacity := rb.capacity
          readPtr := rb.readPtr
          writePtr := (rb.writePtr + 1) % rb.capacity
          available := rb.available + 1 } := by
      simp only [overflowStep]
      rw [if_neg hfull]
    have haN : (rb.available + 1).toNat = rb.available.toNat + 1 := by omega
    have haLt : rb.available.toNat < rb.capacity := by omega
    have hwpLt : rb.writePtr < rb.capacity := by
      rw [hwp]
      exact Nat.mod_lt _ hcap
    constructor
    · rw [hres]
      refine ⟨by simpa using hbl, hrp, ?_, ?_, ?_⟩
      · show (rb.writePtr + 1) % rb.capacity =
          (rb.readPtr + (rb.available + 1).toNat) % rb.capacity
        rw [haN, hwp, Nat.mod_add_mod, Nat.add_assoc]
      · show (0 : ℤ) ≤ rb.available + 1
        omega
      · show rb.available + 1 ≤ (rb.capacity : ℤ)
        omega
    · rw [hres]
      show (List.range (rb.available + 1).toNat).map
          (fun i => (rb.buffer.set rb.writePtr x).getD
            ((rb.readPtr + i) % rb.capacity) 0) =
        pushEvict rb.capacity rb.contents x
      have hnotfull : ¬ rb.capacity ≤ rb.contents.length := by
        rw [hclen]
        omega
      rw [pushEvict, if_neg hnotfull, haN, List.range_succ, List.map_append]
      congr 1
      · rw [RingBuffer.contents]
        apply List.map_congr_left
        intro i hi
        have hiA : i < rb.available.toNat := List.mem_range.mp hi
        have hne : (rb.readPtr + i) % rb.capacity ≠ rb.writePtr := by
          rw [hwp]
          exact mod_index_ne rb.capacity rb.readPtr i rb.available.toNat
            (by omega) haLt (by omega)
        rw [getD_set_other _ _ _ _ (fun he => hne he.symm)]
      · have hposA : (rb.readPtr + rb.available.toNat) % rb.capacity = rb.writePtr :=
          hwp.symm
        simp only [List.map_cons, List.map_nil]
        rw [hposA, getD_set_self _ _ _ (by omega)]

theorem writeOverflow_contents (s : List ℚ) (rb : RingBuffer) (hv : rb.Valid) :
    (rb.writeOverflow s).1.Valid ∧
    (rb.writeOverflow s).1.contents = s.foldl (pushEvict rb.capacity) rb.contents := by
  induction s generalizing rb with
  | nil => exact ⟨hv, rfl⟩
  | cons x t ih =>
    obtain ⟨hv1, hc1⟩ := overflowStep_spec rb x hv
    obtain ⟨hc, -, -⟩ := overflowStep_fields rb x
    obtain ⟨hvr, hcr⟩ := ih (overflowStep rb x).1 hv1
    rw [hc, hc1] at hcr
    simp only [RingBuffer.writeOverflow, List.foldl_cons]
    exact ⟨hvr, hcr⟩

theorem foldl_pushEvict (C : ℕ) (hC : 0 < C) :
    ∀ (s q : List ℚ), q.length ≤ C →
      s.foldl (pushEvict C) q = (q ++ s).drop (q.length + s.length - C) := by
  intro s
  induction s with
  | nil =>
    intro q hq
    simp [Nat.sub_eq_zero_of_le hq]
  | cons x t ih =>
    intro q hq
    rw [List.foldl_cons, pushEvict]
    by_cases hfull : C ≤ q.length
    · have hql : q.length = C := le_antisymm hq hfull
      rw [if_pos hfull]
      have hlen2 : (q.drop 1 ++ [x]).length ≤ C := by
        simp
        omega
      rw [ih _ hlen2]
      cases q with
      | nil =>
        rw [List.length_nil] at hql
        omega
      | cons y q' =>
        have hq' : q'.length + 1 = C := by simpa using hql
        have hidx1 : (( (y :: q').drop 1 ++ [x]).length + t.length - C) = t.length := by
          simp
          omega
        have hidx2 : ((y :: q').length + (x :: t).length - C) = t.length + 1 := by
          simp
          omega
        rw [hidx1, hidx2]
        simp only [List.drop_succ_cons, List.drop_one, List.tail_cons]
        rw [List.cons_append, List.drop_succ_cons, List.append_assoc]
        rfl
    · rw [if_neg hfull]
      have hlen2 : (q ++ [x]).length ≤ C := by
        simp
        omega
      rw [ih _ hlen2]
      have hidx : (q ++ [x]).length + t.length - C = q.length + (x :: t).length - C := by
        simp
        omega
      rw [hidx, List.append_assoc]
      rfl

/-- C3: writing N > C samples via writeOverflow into a (valid) buffer of
capacity C leaves available = C and the buffer holding exactly the last C
samples of the input in order; the overwritten count is N - C when the
buffer started empty and N when it started full. -/
theorem writeOverflow_spec (rb : RingBuffer) (s : List ℚ) (hv : rb.Valid)
    (hN : rb.capacity < s.length) :
    (rb.writeOverflow s).1.available = (rb.capacity : ℤ) ∧
    (rb.writeOverflow s).1.contents = s.drop (s.length - rb.capacity) ∧
    (rb.available = 0 → ((rb.writeOverflow s).2 : ℤ) = (s.length : ℤ) - rb.capacity) ∧
    (rb.available = (rb.capacity : ℤ) → (rb.writeOverflow s).2 = s.length) := by
  obtain ⟨hbl, hrp, hwp, h0, h1⟩ := hv
  have hcap : 0 < rb.capacity := Nat.lt_of_le_of_lt (Nat.zero_le _) hrp
  have hclen : rb.contents.length = rb.available.toNat := by
    simp [RingBuffer.contents]
  refine ⟨?_, ?_, ?_, ?_⟩
  · rw [writeOverflow_avail_formula s rb h0 h1]
    omega
  · obtain ⟨-, hcr⟩ := writeOverflow_contents s rb ⟨hbl, hrp, hwp, h0, h1⟩
    rw [hcr, foldl_pushEvict rb.capacity hcap s rb.contents (by omega)]
    have hidx : rb.contents.length + s.length - rb.capacity =
        rb.contents.length + (s.length - rb.capacity) := by
      omega
    rw [hidx, List.drop_append]
  · intro he
    rw [writeOverflow_count s rb h0 h1, he]
    have hmin : min (s.length : ℤ) ((rb.capacity : ℤ) - 0) = (rb.capacity : ℤ) := by
      omega
    rw [hmin]
  · intro he
    have hcount := writeOverflow_count s rb h0 h1
    rw [he] at hcount
    have hmin : min (s.length : ℤ) ((rb.capacity : ℤ) - (rb.capacity : ℤ)) = 0 := by
      omega
    rw [hmin] at hcount
    omega

/-- Witness for C3: capacity 2, input of 3 samples, starting empty. -/
theorem writeOverflow_spec_witness :
    ((RingBuffer.new 2).writeOverflow [1, 2, 3]).1.available = (2 : ℤ) ∧
    ((RingBuffer.new 2).writeOverflow [1, 2, 3]).1.contents = [2, 3] ∧
    (((RingBuffer.new 2).writeOverflow [1, 2, 3]).2 : ℤ) = 1 := by
  have h := writeOverflow_spec (RingBuffer.new 2) [1, 2, 3] (by decide) (by decide)
  refine ⟨h.1, ?_, ?_⟩
  · have h2 := h.2.1
    simpa using h2
  · have h3 := h.2.2.1 (by decide)
    norm_num [RingBuffer.new] at h3
    exact_mod_cast h3

/-! ### Analyzer lemmas -/

theorem emitViseme_proj (opts : AnalyzerOpts) (st : AnalyzerState) (v : String)
    (i : ℚ) (b : Bands) (c : ℚ) :
    (emitViseme opts st v i b c).1.currentViseme = v ∧
    (emitViseme opts st v i b c).2.viseme = v ∧
    (emitViseme opts st v i b c).2.simpleViseme =
      (objGet EXTENDED_TO_SIMPLE v).getD "A" ∧
    (emitViseme opts st v i b c).2.confidence = c ∧
    (emitViseme opts st v i b c).1.holdCounter = st.holdCounter := by
  by_cases hc : v ≠ st.currentViseme
  · simp [emitViseme, if_pos hc]
  · have he : v = st.currentViseme := not_not.mp hc
    simp [emitViseme, if_neg hc, he]

/-- C4 counterexample: with the default options, an initial state and a
silent input frame, the silence gate fires and analyze() returns viseme
"sil" — but with confidence 0.5 (the `_emitViseme` default), not 0 as the
claim states; the literal 0 passed at the gate is the intensity argument. -/
theorem silence_gate_confidence_cex :
    smoothValue AnalyzerState.init.smoothedAmplitude 0 DEFAULTS.smoothingFactor <
      DEFAULTS.silenceThreshold ∧
    (analyze DEFAULTS AnalyzerState.init 0 ⟨0, 0, 0, 0, 0⟩).2.viseme = "sil" ∧
    (analyze DEFAULTS AnalyzerState.init 0 ⟨0, 0, 0, 0, 0⟩).2.confidence = 1/2 ∧
    (analyze DEFAULTS AnalyzerState.init 0 ⟨0, 0, 0, 0, 0⟩).2.confidence ≠ 0 := by
  with_unfolding_all decide

/-- C4 (amended): for every analyzer state in which the smoothed amplitude
after this cycle's exponential smoothing is below silenceThreshold,
analyze() returns exactly the early silence emission
`_emitViseme('sil', 0, bands)` — so its viseme is "sil", its confidence is
the default 0.5 (the 0 is the intensity argument, not the confidence), and
no later classification rule is evaluated. -/
theorem silence_gate_emits_sil (opts : AnalyzerOpts) (st : AnalyzerState)
    (rawAmplitude : ℚ) (rawBands : Bands)
    (h : smoothValue st.smoothedAmplitude rawAmplitude opts.smoothingFactor <
      opts.silenceThreshold) :
    analyze opts st rawAmplitude rawBands =
      emitViseme opts (afterSmoothing opts st rawAmplitude rawBands) "sil" 0
        (afterSmoothing opts st rawAmplitude rawBands).smoothedBands (1/2) ∧
    (analyze opts st rawAmplitude rawBands).2.viseme = "sil" ∧
    (analyze opts st rawAmplitude rawBands).2.confidence = 1/2 := by
  have hgate : (afterSmoothing opts st rawAmplitude rawBands).smoothedAmplitude <
      opts.silenceThreshold := h
  have heq : analyze opts st rawAmplitude rawBands =
      emitViseme opts (afterSmoothing opts st rawAmplitude rawBands) "sil" 0
        (afterSmoothing opts st rawAmplitude rawBands).smoothedBands (1/2) := by
    simp only [analyze]
    rw [if_pos hgate]
  have hp := emitViseme_proj opts (afterSmoothing opts st rawAmplitude rawBands)
    "sil" 0 (afterSmoothing opts st rawAmplitude rawBands).smoothedBands (1/2)
  refine ⟨heq, ?_, ?_⟩
  · rw [heq]
    exact hp.2.1
  · rw [heq]
    exact hp.2.2.2.1

/-- Witness for the amended C4 at a concrete silent input. -/
theorem silence_gate_emits_sil_witness :
    (analyze DEFAULTS AnalyzerState.init 0 ⟨0, 0, 0, 0, 0⟩).2.viseme = "sil" ∧
    (analyze DEFAULTS AnalyzerState.init 0 ⟨0, 0, 0, 0, 0⟩).2.confidence = 1/2 := by
  have h := silence_gate_emits_sil DEFAULTS AnalyzerState.init 0 ⟨0, 0, 0, 0, 0⟩
    (by with_unfolding_all decide)
  exact ⟨h.2.1, h.2.2⟩

/-- Above the silence gate, the held label and hold counter of `analyze()`
evolve exactly by `holdStep` applied to the classifier's proposal. -/
theorem analyze_holdStep (opts : AnalyzerOpts) (st : AnalyzerState)
    (rawAmplitude : ℚ) (rawBands : Bands)
    (h : ¬ (afterSmoothing opts st rawAmplitude rawBands).smoothedAmplitude <
      opts.silenceThreshold) :
    ((analyze opts st rawAmplitude rawBands).1.currentViseme,
     (analyze opts st rawAmplitude rawBands).1.holdCounter) =
      holdStep opts.holdFrames (st.currentViseme, st.holdCounter)
        (classifyViseme (afterSmoothing opts st rawAmplitude rawBands).smoothedBands
          (clamp ((afterSmoothing opts st rawAmplitude rawBands).smoothedAmplitude * 3) 0 1)
          (afterSmoothing opts st rawAmplitude rawBands).smoothedAmplitude).viseme := by
  simp only [analyze]
  rw [if_neg h]
  set st2 := afterSmoothing opts st rawAmplitude rawBands with hst2
  set v := (classifyViseme st2.smoothedBands (clamp (st2.smoothedAmplitude * 3) 0 1)
    st2.smoothedAmplitude).viseme with hv
  have hcv : st2.currentViseme = st.currentViseme := rfl
  have hch : st2.holdCounter = st.holdCounter := rfl
  rw [hcv, hch]
  by_cases hne : v ≠ st.currentViseme
  · by_cases hhold : st.holdCounter + 1 < opts.holdFrames
    · rw [if_pos hne, if_pos hhold, holdStep, if_pos hne, if_pos hhold]
      obtain ⟨e1, -, -, -, e5⟩ := emitViseme_proj opts
        { st2 with holdCounter := st2.holdCounter + 1 } st2.currentViseme
        (clamp (st2.smoothedAmplitude * 3) 0 1) st2.smoothedBands (1/2)
      rw [Prod.mk.injEq]
      exact ⟨e1, e5⟩
    · rw [if_pos hne, if_neg hhold, holdStep, if_pos hne, if_neg hhold]
      obtain ⟨e1, -, -, -, e5⟩ := emitViseme_proj opts
        { st2 with holdCounter := 0 } v
        (clamp (st2.smoothedAmplitude * 3) 0 1) st2.smoothedBands
        (classifyViseme st2.smoothedBands (clamp (st2.smoothedAmplitude * 3) 0 1)
          st2.smoothedAmplitude).confidence
      rw [Prod.mk.injEq]
      exact ⟨e1, e5⟩
  · rw [if_neg hne, holdStep, if_neg hne]
    obtain ⟨e1, -, -, -, e5⟩ := emitViseme_proj opts
      { st2 with holdCounter := 0 } v
      (clamp (st2.smoothedAmplitude * 3) 0 1) st2.smoothedBands
      (classifyViseme st2.smoothedBands (clamp (st2.smoothedAmplitude * 3) 0 1)
        st2.smoothedAmplitude).confidence
    rw [Prod.mk.injEq]
    have hvc : v = st.currentViseme := not_not.mp hne
    exact ⟨e1.trans hvc, e5⟩

/-- C6: above the silence gate, when the classifier's proposal differs
from the held label the hold counter is incremented and the held label is
kept unchanged while the counter is still below holdFrames; once it
reaches holdFrames the label switches to the proposal and the counter
resets to 0; and when the proposal equals the held label the counter
resets to 0. -/
theorem holdoff_step_behavior (opts : AnalyzerOpts) (st : AnalyzerState)
    (rawAmplitude : ℚ) (rawBands : Bands)
    (h : ¬ smoothValue st.smoothedAmplitude rawAmplitude opts.smoothingFactor <
      opts.silenceThreshold) :
    (((classifyViseme (afterSmoothing opts st rawAmplitude rawBands).smoothedBands
        (clamp ((afterSmoothing opts st rawAmplitude rawBands).smoothedAmplitude * 3) 0 1)
        (afterSmoothing opts st rawAmplitude rawBands).smoothedAmplitude).viseme =
          st.currentViseme →
      (analyze opts st rawAmplitude rawBands).1.currentViseme = st.currentViseme ∧
      (analyze opts st rawAmplitude rawBands).1.holdCounter = 0) ∧
    ((classifyViseme (afterSmoothing opts st rawAmplitude rawBands).smoothedBands
        (clamp ((afterSmoothing opts st rawAmplitude rawBands).smoothedAmplitude * 3) 0 1)
        (afterSmoothing opts st rawAmplitude rawBands).smoothedAmplitude).viseme ≠
          st.currentViseme →
      st.holdCounter + 1 < opts.holdFrames →
      (analyze opts st rawAmplitude rawBands).1.currentViseme = st.currentViseme ∧
      (analyze opts st rawAmplitude rawBands).1.holdCounter = st.holdCounter + 1) ∧
    ((classifyViseme (afterSmoothing opts st rawAmplitude rawBands).smoothedBands
        (clamp ((afterSmoothing opts st rawAmplitude rawBands).smoothedAmplitude * 3) 0 1)
        (afterSmoothing opts st rawAmplitude rawBands).smoothedAmplitude).viseme ≠
          st.currentViseme →
      opts.holdFrames ≤ st.holdCounter + 1 →
      (analyze opts st rawAmplitude rawBands).1.currentViseme =
        (classifyViseme (afterSmoothing opts st rawAmplitude rawBands).smoothedBands
          (clamp ((afterSmoothing opts st rawAmplitude rawBands).smoothedAmplitude * 3) 0 1)
          (afterSmoothing opts st rawAmplitude rawBands).smoothedAmplitude).viseme ∧
      (analyze opts st rawAmplitude rawBands).1.holdCounter = 0)) := by
  have hb := analyze_holdStep opts st rawAmplitude rawBands h
  have h1 := congrArg Prod.fst hb
  have h2 := congrArg Prod.snd hb
  simp only at h1 h2
  refine ⟨?_, ?_, ?_⟩
  · intro hp
    rw [holdStep, if_neg (not_not_intro hp)] at h1 h2
    exact ⟨h1, h2⟩
  · intro hp hhold
    rw [holdStep, if_pos hp, if_pos hhold] at h1 h2
    exact ⟨h1, h2⟩
  · intro hp hhold
    rw [holdStep, if_pos hp, if_neg (by omega : ¬ st.holdCounter + 1 < opts.holdFrames)]
      at h1 h2
    exact ⟨h1, h2⟩

/-- Witness for C6 at a concrete above-gate input whose proposal equals
the held label. -/
theorem holdoff_step_behavior_witness :
    (analyze DEFAULTS AnalyzerState.init 1 ⟨0, 0, 0, 0, 0⟩).1.currentViseme = "sil" ∧
    (analyze DEFAULTS AnalyzerState.init 1 ⟨0, 0, 0, 0, 0⟩).1.holdCounter = 0 := by
  have h := holdoff_step_behavior DEFAULTS AnalyzerState.init 1 ⟨0, 0, 0, 0, 0⟩
    (by with_unfolding_all decide)
  exact h.1 (by with_unfolding_all decide)

theorem holdRun_keep (hf : ℕ) :
    ∀ (ps : List String) (c : String) (k : ℕ), k + ps.length < hf →
      (holdRun hf (c, k) ps).1 = c ∧ (holdRun hf (c, k) ps).2 ≤ k + ps.length := by
  intro ps
  induction ps with
  | nil =>
    intro c k h
    exact ⟨rfl, by simp [holdRun]⟩
  | cons p t ih =>
    intro c k h
    have hlen : k + (t.length + 1) < hf := by simpa using h
    rw [holdRun, List.foldl_cons]
    by_cases hp : p ≠ c
    · have hlt : k + 1 < hf := by omega
      rw [holdStep, if_pos hp, if_pos hlt]
      have hr := ih c (k + 1) (by omega)
      rw [holdRun] at hr
      refine ⟨hr.1, ?_⟩
      calc (List.foldl (holdStep hf) (c, k + 1) t).2 ≤ (k + 1) + t.length := hr.2
        _ ≤ k + (p :: t).length := by simp only [List.length_cons]; omega
    · rw [holdStep, if_neg hp]
      have hr := ih c 0 (by omega)
      rw [holdRun] at hr
      refine ⟨hr.1, ?_⟩
      calc (List.foldl (holdStep hf) (c, 0) t).2 ≤ 0 + t.length := hr.2
        _ ≤ k + (p :: t).length := by simp only [List.length_cons]; omega

/-- C5 counterexample: with hold-off threshold 2 > 1 and the oscillating
proposal sequence aa, E (consecutive proposals differ from each other and
from the held label "sil"), the held label DOES change — to "E" after 2
cycles — even though no two consecutive cycles proposed the same label. -/
theorem holdoff_oscillation_cex :
    1 < 2 ∧ ("aa" : String) ≠ "E" ∧ ("aa" : String) ≠ "sil" ∧
    ("E" : String) ≠ "sil" ∧
    (holdRun 2 ("sil", 0) ["aa", "E"]).1 = "E" ∧
    (holdRun 2 ("sil", 0) ["aa", "E"]).1 ≠ "sil" := by decide

/-- C5 (amended): with hold-off threshold holdFrames > 1, any proposal
sequence of length < holdFrames (oscillating or not, starting with hold
counter 0) leaves the held label unchanged; and the held label changes at
a cycle only if that cycle's proposal differs from the held label and the
hold counter has already accumulated holdFrames - 1 differing cycles —
the proposals need not agree with each other, so an oscillating sequence
avoiding the held label does switch the label at cycle holdFrames. -/
theorem holdoff_oscillation_bound (hf : ℕ) (c : String) (ps : List String)
    (k : ℕ) (p : String) (hhf : 1 < hf) (hlen : ps.length < hf) :
    (holdRun hf (c, 0) ps).1 = c ∧
    ((holdStep hf (c, k) p).1 ≠ c → p ≠ c ∧ hf ≤ k + 1) := by
  constructor
  · exact (holdRun_keep hf ps c 0 (by omega)).1
  · intro hchange
    by_cases hp : p ≠ c
    · refine ⟨hp, ?_⟩
      by_cases hhold : k + 1 < hf
      · exfalso
        apply hchange
        rw [holdStep, if_pos hp, if_pos hhold]
      · omega
    · exfalso
      apply hchange
      rw [holdStep, if_neg hp]

/-- Witness for the amended C5 at concrete values. -/
theorem holdoff_oscillation_bound_witness :
    (holdRun 3 ("sil", 0) ["aa", "E"]).1 = "sil" ∧
    ((holdStep 3 ("sil", 0) "aa").1 ≠ "sil" → ("aa" : String) ≠ "sil" ∧ 3 ≤ 0 + 1) :=
  holdoff_oscillation_bound 3 "sil" ["aa", "E"] 0 "aa" (by decide) (by decide)

/-- C7: for band energies {sub: 0.02, low: 0.03, mid: 0.05, high: 0.30,
veryHigh: 0.35} and any intensity above the lowest vowel floor, the
classifier takes the veryHigh-dominant sibilant branch (veryHigh > 0.8 *
high) and returns "SS" with confidence (high + veryHigh) / (total +
0.001), for any smoothed amplitude. -/
theorem sibilant_scenario (intensity smoothedAmplitude : ℚ) (h : 1/5 < intensity) :
    (classifyViseme ⟨2/100, 3/100, 5/100, 30/100, 35/100⟩ intensity
      smoothedAmplitude).viseme = "SS" ∧
    (classifyViseme ⟨2/100, 3/100, 5/100, 30/100, 35/100⟩ intensity
      smoothedAmplitude).confidence =
      ((30:ℚ)/100 + 35/100) /
        ((2/100 + 3/100 + 5/100 + 30/100 + 35/100) + 1/1000) := by
  constructor <;>
    · simp only [classifyViseme]
      norm_num

/-- Witness for C7 at intensity 1/2 and smoothed amplitude 0. -/
theorem sibilant_scenario_witness :
    (classifyViseme ⟨2/100, 3/100, 5/100, 30/100, 35/100⟩ (1/2) 0).viseme = "SS" ∧
    (classifyViseme ⟨2/100, 3/100, 5/100, 30/100, 35/100⟩ (1/2) 0).confidence =
      ((30:ℚ)/100 + 35/100) /
        ((2/100 + 3/100 + 5/100 + 30/100 + 35/100) + 1/1000) :=
  sibilant_scenario (1/2) 0 (by norm_num)

/-- Case analysis principle for `_classifyViseme`: its result is one of
the sixteen branch values. -/
theorem classify_viseme_cases (P : Classified → Prop) (b : Bands) (i sa : ℚ)
    (hsil9 : P ⟨"sil", 9/10⟩)
    (hSS : P ⟨"SS", (b.high + b.veryHigh) /
      (b.sub + b.low + b.mid + b.high + b.veryHigh + 1/1000)⟩)
    (hCH : P ⟨"CH", (b.high + b.veryHigh) /
      (b.sub + b.low + b.mid + b.high + b.veryHigh + 1/1000) * (85/100)⟩)
    (hFF : P ⟨"FF", (b.mid + b.high) /
      (b.sub + b.low + b.mid + b.high + b.veryHigh + 1/1000) * (8/10)⟩)
    (hPP : P ⟨"PP", 6/10⟩) (hDD : P ⟨"DD", 6/10⟩) (hnn : P ⟨"nn", 65/100⟩)
    (haa7 : P ⟨"aa", 7/10⟩) (hE65 : P ⟨"E", 65/100⟩) (hO : P ⟨"O", 6/10⟩)
    (hI55 : P ⟨"I", 55/100⟩) (hU : P ⟨"U", 5/10⟩) (haa4 : P ⟨"aa", 4/10⟩)
    (hE35 : P ⟨"E", 35/100⟩) (hI3 : P ⟨"I", 3/10⟩) (hsil5 : P ⟨"sil", 5/10⟩) :
    P (classifyViseme b i sa) := by
  simp only [classifyViseme]
  by_cases h1 : (b.sub + b.low + b.mid + b.high + b.veryHigh : ℚ) < 1/100
  · rw [if_pos h1]
    exact hsil9
  rw [if_neg h1]
  by_cases h2 : (b.high + b.veryHigh) /
      (b.sub + b.low + b.mid + b.high + b.veryHigh + 1/1000) > 55/100 ∧
      b.high > 15/100
  · rw [if_pos h2]
    by_cases h3 : b.veryHigh > b.high * (8/10)
    · rw [if_pos h3]
      exact hSS
    · rw [if_neg h3]
      exact hCH
  rw [if_neg h2]
  by_cases h4 : (b.mid + b.high) /
      (b.sub + b.low + b.mid + b.high + b.veryHigh + 1/1000) > 5/10 ∧
      b.high > 1/10 ∧ b.low < 15/100
  · rw [if_pos h4]
    exact hFF
  rw [if_neg h4]
  by_cases h5 : i > 6/10 ∧
      1 - |b.high - b.low| /
        (b.sub + b.low + b.mid + b.high + b.veryHigh + 1/1000) > 7/10 ∧
      sa > 8/100
  · rw [if_pos h5]
    by_cases h6 : b.low > b.mid
    · rw [if_pos h6]
      exact hPP
    · rw [if_neg h6]
      exact hDD
  rw [if_neg h5]
  by_cases h7 : b.sub > 2/10 ∧ b.low > 15/100 ∧ b.high < 8/100 ∧
      b.mid < b.low * (7/10)
  · rw [if_pos h7]
    exact hnn
  rw [if_neg h7]
  by_cases h8 : b.low > 2/10 ∧ b.mid > 15/100 ∧ i > 5/10
  · rw [if_pos h8]
    exact haa7
  rw [if_neg h8]
  by_cases h9 : b.mid > b.low ∧ b.mid > 15/100 ∧ i > 3/10
  · rw [if_pos h9]
    exact hE65
  rw [if_neg h9]
  by_cases h10 : b.sub > b.mid ∧ b.low > b.mid ∧ i > 3/10
  · rw [if_pos h10]
    exact hO
  rw [if_neg h10]
  by_cases h11 : b.mid > 1/10 ∧ b.high > b.low * (5/10) ∧ i > 2/10
  · rw [if_pos h11]
    exact hI55
  rw [if_neg h11]
  by_cases h12 : b.sub > 15/100 ∧ b.high < 5/100
  · rw [if_pos h12]
    exact hU
  rw [if_neg h12]
  by_cases h13 : i > 5/10
  · rw [if_pos h13]
    exact haa4
  rw [if_neg h13]
  by_cases h14 : i > 3/10
  · rw [if_pos h14]
    exact hE35
  rw [if_neg h14]
  by_cases h15 : i > 15/100
  · rw [if_pos h15]
    exact hI3
  rw [if_neg h15]
  exact hsil5

theorem classify_viseme_mem (b : Bands) (i sa : ℚ) :
    (classifyViseme b i sa).viseme ∈ CLASSIFIER_LABELS := by
  apply classify_viseme_cases (fun c => c.viseme ∈ CLASSIFIER_LABELS) b i sa <;>
    simp [CLASSIFIER_LABELS]

theorem ratio_conf_bounds (x t : ℚ) (hx : 0 ≤ x) (hxt : x ≤ t) (ht : 0 ≤ t) :
    0 ≤ x / (t + 1/1000) ∧ x / (t + 1/1000) ≤ 1 := by
  have hd : (0:ℚ) < t + 1/1000 := by linarith
  constructor
  · exact div_nonneg hx (le_of_lt hd)
  · rw [div_le_one hd]
    linarith

theorem classify_conf_bounds (b : Bands) (i sa : ℚ)
    (h1 : 0 ≤ b.sub) (h2 : 0 ≤ b.low) (h3 : 0 ≤ b.mid) (h4 : 0 ≤ b.high)
    (h5 : 0 ≤ b.veryHigh) :
    0 ≤ (classifyViseme b i sa).confidence ∧
    (classifyViseme b i sa).confidence ≤ 1 := by
  have hsib := ratio_conf_bounds (b.high + b.veryHigh)
    (b.sub + b.low + b.mid + b.high + b.veryHigh)
    (by linarith) (by linarith) (by linarith)
  have hfric := ratio_conf_bounds (b.mid + b.high)
    (b.sub + b.low + b.mid + b.high + b.veryHigh)
    (by linarith) (by linarith) (by linarith)
  apply classify_viseme_cases
    (fun c => 0 ≤ c.confidence ∧ c.confidence ≤ 1) b i sa <;>
    refine ⟨?_, ?_⟩ <;>
    first
      | (norm_num; done)
      | exact hsib.1
      | exact hfric.1
      | linarith [hsib.1, hsib.2]

/-- C8: the classifier is total: for every non-negative band-energy input
and any intensity and smoothed amplitude, it returns one of its twelve
labels with a confidence in [0, 1], and the guarded denominator
totalEnergy + 0.001 is bounded below by 0.001 (so no branch divides by
zero). -/
theorem classify_total_and_bounded (b : Bands) (intensity smoothedAmplitude : ℚ)
    (hb : b.Nonneg) :
    (classifyViseme b intensity smoothedAmplitude).viseme ∈ CLASSIFIER_LABELS ∧
    0 ≤ (classifyViseme b intensity smoothedAmplitude).confidence ∧
    (classifyViseme b intensity smoothedAmplitude).confidence ≤ 1 ∧
    1/1000 ≤ (b.sub + b.low + b.mid + b.high + b.veryHigh) + 1/1000 := by
  obtain ⟨h1, h2, h3, h4, h5⟩ := hb
  have hc := classify_conf_bounds b intensity smoothedAmplitude h1 h2 h3 h4 h5
  exact ⟨classify_viseme_mem b intensity smoothedAmplitude, hc.1, hc.2, by linarith⟩

/-- Witness for C8 at the all-zero band input. -/
theorem classify_total_and_bounded_witness :
    (classifyViseme ⟨0, 0, 0, 0, 0⟩ 0 0).viseme ∈ CLASSIFIER_LABELS ∧
    0 ≤ (classifyViseme ⟨0, 0, 0, 0, 0⟩ 0 0).confidence ∧
    (classifyViseme ⟨0, 0, 0, 0, 0⟩ 0 0).confidence ≤ 1 ∧
    (1:ℚ)/1000 ≤ (0 + 0 + 0 + 0 + 0) + 1/1000 := by
  have h := classify_total_and_bounded ⟨0, 0, 0, 0, 0⟩ 0 0 (by norm_num [Bands.Nonneg])
  exact h

theorem shapeOrSil_bounds (v : String) :
    0 ≤ (shapeOrSil v).opn ∧ (shapeOrSil v).opn ≤ 1 ∧
    0 ≤ (shapeOrSil v).width ∧ (shapeOrSil v).width ≤ 1 ∧
    0 ≤ (shapeOrSil v).round ∧ (shapeOrSil v).round ≤ 1 := by
  have hall : ∀ p ∈ VISEME_SHAPES,
      0 ≤ p.2.opn ∧ p.2.opn ≤ 1 ∧ 0 ≤ p.2.width ∧ p.2.width ≤ 1 ∧
      0 ≤ p.2.round ∧ p.2.round ≤ 1 := by
    with_unfolding_all decide
  rcases h : objGet VISEME_SHAPES v with _ | s
  · simp only [shapeOrSil, h, Option.getD_none]
    norm_num
  · simp only [shapeOrSil, h, Option.getD_some]
    exact hall (v, s) (objGet_mem _ _ _ h)

theorem getTransitionWeight_bounds (a b : String) :
    0 ≤ getTransitionWeight a b ∧ getTransitionWeight a b ≤ 1 := by
  have hall : ∀ p ∈ TRANSITION_WEIGHTS, ∀ q ∈ p.2, 0 ≤ q.2 ∧ q.2 ≤ 1 := by
    with_unfolding_all decide
  rcases h1 : objGet TRANSITION_WEIGHTS a with _ | l
  · simp only [getTransitionWeight, h1, Option.none_bind, Option.getD_none]
    norm_num
  · rcases h2 : objGet l b with _ | q
    · simp only [getTransitionWeight, h1, h2, Option.some_bind, Option.getD_none]
      norm_num
    · simp only [getTransitionWeight, h1, h2, Option.some_bind, Option.getD_some]
      exact hall (a, l) (objGet_mem _ _ _ h1) (b, q) (objGet_mem _ _ _ h2)

theorem lerp_bounds (a b t : ℚ) (ha0 : 0 ≤ a) (ha1 : a ≤ 1) (hb0 : 0 ≤ b)
    (hb1 : b ≤ 1) (ht0 : 0 ≤ t) (ht1 : t ≤ 1) :
    0 ≤ a + (b - a) * t ∧ a + (b - a) * t ≤ 1 := by
  constructor <;> nlinarith

theorem emitViseme_shape (opts : AnalyzerOpts) (st : AnalyzerState) (v : String)
    (i : ℚ) (b : Bands) (c : ℚ)
    (ht0 : 0 ≤ st.transitionProgress) (ht1 : st.transitionProgress ≤ 1) :
    ((emitViseme opts st v i b c).2.shape.opn =
      (shapeOrSil (emitViseme opts st v i b c).2.transition.fromV).opn +
        ((shapeOrSil (emitViseme opts st v i b c).2.transition.toV).opn -
          (shapeOrSil (emitViseme opts st v i b c).2.transition.fromV).opn) *
          (emitViseme opts st v i b c).2.transition.progress) ∧
    ((emitViseme opts st v i b c).2.shape.width =
      (shapeOrSil (emitViseme opts st v i b c).2.transition.fromV).width +
        ((shapeOrSil (emitViseme opts st v i b c).2.transition.toV).width -
          (shapeOrSil (emitViseme opts st v i b c).2.transition.fromV).width) *
          (emitViseme opts st v i b c).2.transition.progress) ∧
    ((emitViseme opts st v i b c).2.shape.round =
      (shapeOrSil (emitViseme opts st v i b c).2.transition.fromV).round +
        ((shapeOrSil (emitViseme opts st v i b c).2.transition.toV).round -
          (shapeOrSil (emitViseme opts st v i b c).2.transition.fromV).round) *
          (emitViseme opts st v i b c).2.transition.progress) ∧
    (0 ≤ (emitViseme opts st v i b c).2.shape.opn ∧
      (emitViseme opts st v i b c).2.shape.opn ≤ 1) ∧
    (0 ≤ (emitViseme opts st v i b c).2.shape.width ∧
      (emitViseme opts st v i b c).2.shape.width ≤ 1) ∧
    (0 ≤ (emitViseme opts st v i b c).2.shape.round ∧
      (emitViseme opts st v i b c).2.shape.round ≤ 1) ∧
    (0 ≤ (emitViseme opts st v i b c).1.transitionProgress ∧
      (emitViseme opts st v i b c).1.transitionProgress ≤ 1) := by
  have hw := getTransitionWeight_bounds st.previousViseme st.currentViseme
  by_cases hc : v ≠ st.currentViseme
  · have htp0 : (0:ℚ) ≤ 0 := le_refl 0
    simp only [emitViseme, if_pos hc]
    refine ⟨trivial, trivial, trivial, ?_, ?_, ?_, by norm_num⟩
    · obtain ⟨o1, o2, -, -, -, -⟩ := shapeOrSil_bounds st.currentViseme
      obtain ⟨p1, p2, -, -, -, -⟩ := shapeOrSil_bounds v
      exact lerp_bounds _ _ _ o1 o2 p1 p2 (le_refl 0) (by norm_num)
    · obtain ⟨-, -, o1, o2, -, -⟩ := shapeOrSil_bounds st.currentViseme
      obtain ⟨-, -, p1, p2, -, -⟩ := shapeOrSil_bounds v
      exact lerp_bounds _ _ _ o1 o2 p1 p2 (le_refl 0) (by norm_num)
    · obtain ⟨-, -, -, -, o1, o2⟩ := shapeOrSil_bounds st.currentViseme
      obtain ⟨-, -, -, -, p1, p2⟩ := shapeOrSil_bounds v
      exact lerp_bounds _ _ _ o1 o2 p1 p2 (le_refl 0) (by norm_num)
  · have htp0 : 0 ≤ min 1 (st.transitionProgress +
        (1 - getTransitionWeight st.previousViseme st.currentViseme) * (3/10)) := by
      apply le_min
      · norm_num
      · nlinarith [hw.1, hw.2]
    have htp1 : min 1 (st.transitionProgress +
        (1 - getTransitionWeight st.previousViseme st.currentViseme) * (3/10)) ≤ 1 :=
      min_le_left _ _
    simp only [emitViseme, if_neg hc]
    refine ⟨trivial, trivial, trivial, ?_, ?_, ?_, htp0, htp1⟩
    · obtain ⟨o1, o2, -, -, -, -⟩ := shapeOrSil_bounds st.previousViseme
      obtain ⟨p1, p2, -, -, -, -⟩ := shapeOrSil_bounds st.currentViseme
      exact lerp_bounds _ _ _ o1 o2 p1 p2 htp0 htp1
    · obtain ⟨-, -, o1, o2, -, -⟩ := shapeOrSil_bounds st.previousViseme
      obtain ⟨-, -, p1, p2, -, -⟩ := shapeOrSil_bounds st.currentViseme
      exact lerp_bounds _ _ _ o1 o2 p1 p2 htp0 htp1
    · obtain ⟨-, -, -, -, o1, o2⟩ := shapeOrSil_bounds st.previousViseme
      obtain ⟨-, -, -, -, p1, p2⟩ := shapeOrSil_bounds st.currentViseme
      exact lerp_bounds _ _ _ o1 o2 p1 p2 htp0 htp1

/-- Every `analyze()` call returns via `_emitViseme`, applied to a state
with the same `transitionProgress` as the input state, and with a label
that is "sil", the held label, or a classifier output. -/
theorem analyze_is_emit (opts : AnalyzerOpts) (st : AnalyzerState)
    (rawAmplitude : ℚ) (rawBands : Bands) :
    ∃ st' v i c, analyze opts st rawAmplitude rawBands =
      emitViseme opts st' v i st'.smoothedBands c ∧
      st'.transitionProgress = st.transitionProgress ∧
      st'.previousViseme = st.previousViseme ∧
      (v = "sil" ∨ v = st.currentViseme ∨ v ∈ CLASSIFIER_LABELS) := by
  simp only [analyze]
  by_cases hg : (afterSmoothing opts st rawAmplitude rawBands).smoothedAmplitude <
      opts.silenceThreshold
  · rw [if_pos hg]
    exact ⟨afterSmoothing opts st rawAmplitude rawBands, "sil", 0, 1/2, rfl, rfl, rfl,
      Or.inl rfl⟩
  rw [if_neg hg]
  set st2 := afterSmoothing opts st rawAmplitude rawBands with hst2
  set ci := clamp (st2.smoothedAmplitude * 3) 0 1 with hci
  by_cases hne : (classifyViseme st2.smoothedBands ci st2.smoothedAmplitude).viseme ≠
      st2.currentViseme
  · by_cases hhold : st2.holdCounter + 1 < opts.holdFrames
    · rw [if_pos hne, if_pos hhold]
      exact ⟨{ st2 with holdCounter := st2.holdCounter + 1 }, st2.currentViseme, ci,
        1/2, rfl, rfl, rfl, Or.inr (Or.inl rfl)⟩
    · rw [if_pos hne, if_neg hhold]
      exact ⟨{ st2 with holdCounter := 0 },
        (classifyViseme st2.smoothedBands ci st2.smoothedAmplitude).viseme, ci,
        (classifyViseme st2.smoothedBands ci st2.smoothedAmplitude).confidence,
        rfl, rfl, rfl, Or.inr (Or.inr (classify_viseme_mem _ _ _))⟩
  · rw [if_neg hne]
    exact ⟨{ st2 with holdCounter := 0 },
      (classifyViseme st2.smoothedBands ci st2.smoothedAmplitude).viseme, ci,
      (classifyViseme st2.smoothedBands ci st2.smoothedAmplitude).confidence,
      rfl, rfl, rfl, Or.inr (Or.inr (classify_viseme_mem _ _ _))⟩

/-- C9: for every frame emitted by analyze() (from a state whose
transition progress lies in [0, 1], as every reachable state's does), the
shape fields open, width and round each equal the linear interpolation
a + (b - a) * t between the previous viseme's static shape a
(transition.from) and the current viseme's static shape b (transition.to)
at t = the frame's transitionProgress, and each lies in [0, 1]; moreover
the updated state's transitionProgress stays in [0, 1]. -/
theorem frame_shape_lerp (opts : AnalyzerOpts) (st : AnalyzerState)
    (rawAmplitude : ℚ) (rawBands : Bands)
    (ht0 : 0 ≤ st.transitionProgress) (ht1 : st.transitionProgress ≤ 1) :
    ((analyze opts st rawAmplitude rawBands).2.shape.opn =
      (shapeOrSil (analyze opts st rawAmplitude rawBands).2.transition.fromV).opn +
        ((shapeOrSil (analyze opts st rawAmplitude rawBands).2.transition.toV).opn -
          (shapeOrSil (analyze opts st rawAmplitude rawBands).2.transition.fromV).opn) *
          (analyze opts st rawAmplitude rawBands).2.transition.progress) ∧
    ((analyze opts st rawAmplitude rawBands).2.shape.width =
      (shapeOrSil (analyze opts st rawAmplitude rawBands).2.transition.fromV).width +
        ((shapeOrSil (analyze opts st rawAmplitude rawBands).2.transition.toV).width -
          (shapeOrSil (analyze opts st rawAmplitude rawBands).2.transition.fromV).width) *
          (analyze opts st rawAmplitude rawBands).2.transition.progress) ∧
    ((analyze opts st rawAmplitude rawBands).2.shape.round =
      (shapeOrSil (analyze opts st rawAmplitude rawBands).2.transition.fromV).round +
        ((shapeOrSil (analyze opts st rawAmplitude rawBands).2.transition.toV).round -
          (shapeOrSil (analyze opts st rawAmplitude rawBands).2.transition.fromV).round) *
          (analyze opts st rawAmplitude rawBands).2.transition.progress) ∧
    (0 ≤ (analyze opts st rawAmplitude rawBands).2.shape.opn ∧
      (analyze opts st rawAmplitude rawBands).2.shape.opn ≤ 1) ∧
    (0 ≤ (analyze opts st rawAmplitude rawBands).2.shape.width ∧
      (analyze opts st rawAmplitude rawBands).2.shape.width ≤ 1) ∧
    (0 ≤ (analyze opts st rawAmplitude rawBands).2.shape.round ∧
      (analyze opts st rawAmplitude rawBands).2.shape.round ≤ 1) ∧
    (0 ≤ (analyze opts st rawAmplitude rawBands).1.transitionProgress ∧
      (analyze opts st rawAmplitude rawBands).1.transitionProgress ≤ 1) := by
  obtain ⟨st', v, i, c, heq, htp, -, -⟩ := analyze_is_emit opts st rawAmplitude rawBands
  rw [heq]
  exact emitViseme_shape opts st' v i st'.smoothedBands c
    (htp ▸ ht0) (htp ▸ ht1)

/-- Witness for C9 at a concrete silent input from the initial state. -/
theorem frame_shape_lerp_witness :
    (0 ≤ (analyze DEFAULTS AnalyzerState.init 0 ⟨0, 0, 0, 0, 0⟩).2.shape.opn ∧
      (analyze DEFAULTS AnalyzerState.init 0 ⟨0, 0, 0, 0, 0⟩).2.shape.opn ≤ 1) ∧
    (0 ≤ (analyze DEFAULTS AnalyzerState.init 0 ⟨0, 0, 0, 0, 0⟩).1.transitionProgress ∧
      (analyze DEFAULTS AnalyzerState.init 0 ⟨0, 0, 0, 0, 0⟩).1.transitionProgress ≤ 1) := by
  have h := frame_shape_lerp DEFAULTS AnalyzerState.init 0 ⟨0, 0, 0, 0, 0⟩
    (by norm_num [AnalyzerState.init]) (by norm_num [AnalyzerState.init])
  exact ⟨h.2.2.2.1, h.2.2.2.2.2.2⟩

/-- C10: the derived extended-to-simple map assigns one of the six simple
keys to every one of the 15 extended viseme keys, and every frame emitted
by analyze() from a state whose held viseme is an extended key has a
simpleViseme among the six simple keys. -/
theorem simpleViseme_covers (opts : AnalyzerOpts) (st : AnalyzerState)
    (rawAmplitude : ℚ) (rawBands : Bands)
    (hcur : st.currentViseme ∈ EXTENDED_VISEME_KEYS) :
    (∀ k ∈ EXTENDED_VISEME_KEYS, (objGet EXTENDED_TO_SIMPLE k).isSome ∧
      (objGet EXTENDED_TO_SIMPLE k).getD "A" ∈ SIMPLE_VISEME_KEYS) ∧
    (analyze opts st rawAmplitude rawBands).2.simpleViseme ∈ SIMPLE_VISEME_KEYS := by
  have hmap : ∀ k ∈ EXTENDED_VISEME_KEYS, (objGet EXTENDED_TO_SIMPLE k).isSome ∧
      (objGet EXTENDED_TO_SIMPLE k).getD "A" ∈ SIMPLE_VISEME_KEYS := by decide
  have hsub : ∀ k ∈ CLASSIFIER_LABELS, k ∈ EXTENDED_VISEME_KEYS := by decide
  refine ⟨hmap, ?_⟩
  obtain ⟨st', v, i, c, heq, -, -, hv⟩ := analyze_is_emit opts st rawAmplitude rawBands
  have hvext : v ∈ EXTENDED_VISEME_KEYS := by
    rcases hv with h | h | h
    · rw [h]
      decide
    · rw [h]
      exact hcur
    · exact hsub v h
  rw [heq]
  rw [(emitViseme_proj opts st' v i st'.smoothedBands c).2.2.1]
  exact (hmap v hvext).2

/-- Witness for C10 at a concrete input from the initial state. -/
theorem simpleViseme_covers_witness :
    (analyze DEFAULTS AnalyzerState.init 0 ⟨0, 0, 0, 0, 0⟩).2.simpleViseme ∈
      SIMPLE_VISEME_KEYS :=
  (simpleViseme_covers DEFAULTS AnalyzerState.init 0 ⟨0, 0, 0, 0, 0⟩ (by decide)).2
